import Mathlib

/-!
Verification of the `bdlcc::Cache` component
(`src/groups/bdl/bdlcc/bdlcc_cache.h`): an in-process key-value cache with
LRU/FIFO eviction, high/low watermark eviction control, and a post-eviction
callback.

The embedding models the two coupled containers of the source directly:

* `queue` models `d_queue : bsl::list<KEY>` as a list of nodes `(id, key)`,
  front first.  The `id` is the stable identity of a list node (the address
  of the node); the `bsl::list` iterators stored in the map and compared by
  the code are modelled as these ids.  `nextId` supplies a fresh id for
  `push_back`, mirroring allocation of a new list node.
* `map` models `d_map`, a `bsl::unordered_map` from `KEY` to the pair
  `(shared_ptr<VALUE>, list<KEY>::iterator)`, as an association list of
  entries `(key, value, cursor)`; `find` returns the first entry with an
  equal key (the embedding assumes a well-behaved user equality, taken to be
  decidable equality on `K`).
* The value handle `bsl::shared_ptr<VALUE>` is modelled by the value it
  designates.
* `hasCallback` records whether `d_postEvictionCallback` is set.  A set
  callback is observed through the sequence of value handles passed to it;
  each mutating operation returns that sequence alongside the new state.

The reader-writer lock `d_rwlock` is not part of the state model: every
public operation executes its critical section atomically here, which is
exactly the serialization the lock provides.
-/

namespace BdlccCache

/-- Eviction policies of `bdlcc::CacheEvictionPolicy::Enum`. -/
inductive CacheEvictionPolicy : Type where
  | e_LRU : CacheEvictionPolicy
  | e_FIFO : CacheEvictionPolicy
deriving DecidableEq

/-- State of a `bdlcc::Cache<KEY, VALUE>` object (the data members guarded by
`d_rwlock`). -/
structure Cache (K V : Type) where
  queue : List (Nat × K)
  map : List (K × V × Nat)
  nextId : Nat
  evictionPolicy : CacheEvictionPolicy
  lowWatermark : Nat
  highWatermark : Nat
  hasCallback : Bool

variable {K V : Type} [DecidableEq K]

/-- Lookup `d_map.find(key)`: the first entry whose key equals `key`. -/
def mapFind (m : List (K × V × Nat)) (key : K) : Option (K × V × Nat) :=
  m.find? (fun e => decide (e.1 = key))

/-- Accessor `Cache::size`, which returns `d_map.size()`. -/
def size (s : Cache K V) : Nat :=
  s.map.length

/-- Translation of `Cache::evictItem`: copy the value handle, erase the queue
node designated by the entry's stored iterator, erase the map entry, and
invoke the post-eviction callback (when one is set) with the handle.  The
second component records the callback invocations, in order. -/
def evictItem (s : Cache K V) (e : K × V × Nat) : Cache K V × List V :=
  ({ s with
      queue := s.queue.eraseP (fun p => decide (p.1 = e.2.2)),
      map := s.map.eraseP (fun q => decide (q.1 = e.1)) },
   if s.hasCallback then [e.2.1] else [])

/-- Body of the while loop of `Cache::enforceHighWatermark`, with explicit
fuel.  Every iteration whose `find` succeeds erases exactly one map entry,
so fuel equal to `d_map.size()` lets the loop run to its exit condition.
The branches returning early on an empty queue or a failed `find` model the
`BSLS_ASSERT(mapIt != d_map.end())` precondition of the source; they are
unreachable from states satisfying `Good`. -/
def enforceLoop : Nat → Cache K V → Cache K V × List V
  | 0, s => (s, [])
  | fuel + 1, s =>
    if s.lowWatermark ≤ s.map.length ∧ 0 < s.map.length then
      match s.queue with
      | [] => (s, [])
      | p :: _ =>
        match mapFind s.map p.2 with
        | none => (s, [])
        | some e =>
          let r := enforceLoop fuel (evictItem s e).1
          (r.1, (evictItem s e).2 ++ r.2)
    else (s, [])

/-- Translation of `Cache::enforceHighWatermark`: return immediately when
`d_map.size() < d_highWatermark`, otherwise evict from the front of the
queue while `d_map.size() >= d_lowWatermark && d_map.size() > 0`. -/
def enforceHighWatermark (s : Cache K V) : Cache K V × List V :=
  if s.map.length < s.highWatermark then (s, [])
  else enforceLoop s.map.length s

/-- Write through the map iterator obtained from `find`:
`mapIt->second.first = valuePtr` replaces the value handle of the first
entry whose key equals `key`, leaving its key and queue cursor intact. -/
def setValueAt (m : List (K × V × Nat)) (key : K) (v : V) : List (K × V × Nat) :=
  match m with
  | [] => []
  | q :: rest =>
    if q.1 = key then (q.1, v, q.2.2) :: rest
    else q :: setValueAt rest key v

/-- Translation of `d_queue.splice(d_queue.end(), d_queue, queueIt)`: move
the node designated by cursor `c` to the back of the queue.  The node keeps
its identity (its id), exactly as a spliced `bsl::list` node keeps its
address and the iterators to it stay valid.  If no node has id `c` the
iterator is invalid (unreachable from states satisfying `Good`) and the
queue is returned unchanged. -/
def spliceToBack (q : List (Nat × K)) (c : Nat) : List (Nat × K) :=
  match q.find? (fun p => decide (p.1 = c)) with
  | none => q
  | some node => q.eraseP (fun p => decide (p.1 = c)) ++ [node]

/-- Portion of `Cache::insertValuePtrMoveImp` after the call to
`enforceHighWatermark`: look up the key; when present, overwrite the value
handle through the map iterator and splice the queue node to the back; when
absent, append a fresh queue node (under the `Cache_QueueProctor`), then
`emplace` the map entry holding the handle and the new iterator, and release
the proctor.  Returns `true` exactly when a new entry was created.  Move
versus copy of the key and of the value handle does not change the stored
result, so the `moveKey` and `moveValuePtr` flags have no counterpart
here. -/
def insertAfterEnforce (s : Cache K V) (key : K) (valuePtr : V) :
    Cache K V × Bool :=
  match mapFind s.map key with
  | some e =>
    ({ s with
        map := setValueAt s.map key valuePtr,
        queue := spliceToBack s.queue e.2.2 }, false)
  | none =>
    ({ s with
        queue := s.queue ++ [(s.nextId, key)],
        map := s.map ++ [(key, valuePtr, s.nextId)],
        nextId := s.nextId + 1 }, true)

/-- Translation of `Cache::insertValuePtrMoveImp`: run the eviction
controller, then insert or replace.  The third component is the sequence of
post-eviction callback invocations (all of them produced by the
controller). -/
def insertValuePtrMoveImp (s : Cache K V) (key : K) (valuePtr : V) :
    Cache K V × Bool × List V :=
  let r := enforceHighWatermark s
  let t := insertAfterEnforce r.1 key valuePtr
  (t.1, t.2, r.2)

/-- Public `Cache::insert` (every overload: by value, by movable value, or
by shared handle, with copied or moved key).  In the source each overload
materializes the value into a shared handle before touching the containers
and then funnels into `insertValuePtrMoveImp`; in the pure model all
overloads coincide. -/
def insert (s : Cache K V) (key : K) (value : V) : Cache K V × List V :=
  let r := insertValuePtrMoveImp s key value
  (r.1, r.2.2)

/-- Public `Cache::insertBulk` (iterator-range, vector and moved-vector
overloads): insert each pair in order under one lock acquisition, counting
the insertions that created a new entry. -/
def insertBulk : Cache K V → List (K × V) → Cache K V × Nat × List V
  | s, [] => (s, 0, [])
  | s, kv :: rest =>
    let r := insertValuePtrMoveImp s kv.1 kv.2
    let t := insertBulk r.1 rest
    (t.1, (if r.2.1 then 1 else 0) + t.2.1, r.2.2 ++ t.2.2)

/-- Translation of `Cache::erase`: find the key; return 1 when absent,
otherwise `evictItem` it and return 0. -/
def erase (s : Cache K V) (key : K) : Cache K V × Nat × List V :=
  match mapFind s.map key with
  | none => (s, 1, [])
  | some e =>
    let r := evictItem s e
    (r.1, 0, r.2)

/-- Translation of `Cache::eraseBulk` (both overloads): erase each key in
order, counting the keys found. -/
def eraseBulk : Cache K V → List K → Cache K V × Nat × List V
  | s, [] => (s, 0, [])
  | s, k :: rest =>
    match mapFind s.map k with
    | none => eraseBulk s rest
    | some e =>
      let r := evictItem s e
      let t := eraseBulk r.1 rest
      (t.1, 1 + t.2.1, r.2 ++ t.2.2)

/-- Translation of `Cache::popFront`: when the map is non-empty, evict the
entry of the key at the front of the queue and return 0; return 1 on an
empty cache.  The branches for an empty queue or a failed `find` model the
`BSLS_ASSERT(mapIt != d_map.end())`; they are unreachable from states
satisfying `Good`. -/
def popFront (s : Cache K V) : Cache K V × Nat × List V :=
  if 0 < s.map.length then
    match s.queue with
    | [] => (s, 0, [])
    | p :: _ =>
      match mapFind s.map p.2 with
      | none => (s, 0, [])
      | some e =>
        let r := evictItem s e
        (r.1, 0, r.2)
  else (s, 1, [])

/-- Translation of `Cache::clear`: drop all map and queue state; the
post-eviction callback is not invoked, so the invocation list is empty. -/
def clear (s : Cache K V) : Cache K V × List V :=
  ({ s with map := [], queue := [] }, [])

/-- Translation of `Cache::setPostEvictionCallback`: store the callback
slot; the model records only whether a callback is set. -/
def setPostEvictionCallback (s : Cache K V) (callbackSet : Bool) : Cache K V :=
  { s with hasCallback := callbackSet }

/-- Translation of `Cache::tryGetValue`.  The write lock is chosen exactly
when the policy is LRU and `modifyEvictionQueue` holds.  On a miss the
function returns 1 before writing `*value`.  On a hit it loads the stored
handle and, under the write lock, splices the found node to the back of the
queue unless it is already the last node.  The result is
`(state, return code, assignment made to the output handle)`, where `none`
means the caller's output object was not touched. -/
def tryGetValue (s : Cache K V) (key : K) (modifyEvictionQueue : Bool) :
    Cache K V × Nat × Option V :=
  let writeLock : Bool :=
    decide (s.evictionPolicy = CacheEvictionPolicy.e_LRU) && modifyEvictionQueue
  match mapFind s.map key with
  | none => (s, 1, none)
  | some e =>
    if writeLock then
      match s.queue.getLast? with
      | none => (s, 0, some e.2.1)
      | some lastNode =>
        if lastNode.1 = e.2.2 then (s, 0, some e.2.1)
        else ({ s with queue := spliceToBack s.queue e.2.2 }, 0, some e.2.1)
    else (s, 0, some e.2.1)

/-- Loop of `Cache::visit`: walk the queue front to back, resolve each key
in the map, call the visitor, and stop after the first `false` result.  The
returned list holds the `(key, value)` arguments of the visitor calls, in
order.  A failed `find` models `BSLS_ASSERT(mapIt != d_map.end())`. -/
def visitLoop (m : List (K × V × Nat)) (f : K → V → Bool) :
    List (Nat × K) → List (K × V)
  | [] => []
  | p :: rest =>
    match mapFind m p.2 with
    | none => []
    | some e =>
      (p.2, e.2.1) :: (if f p.2 e.2.1 then visitLoop m f rest else [])

/-- Translation of `Cache::visit`: a read-locked traversal that leaves the
state unchanged and reports the visited pairs. -/
def visit (s : Cache K V) (f : K → V → Bool) : Cache K V × List (K × V) :=
  (s, visitLoop s.map f s.queue)

/-- Destructor loop of `Cache_QueueProctor`, with explicit fuel: pop the
back of the queue until the address of the last node equals the recorded
address (`none` records an empty queue).  The recorded address is either
absent or the address of a node still in the queue, so fuel equal to the
queue length always suffices. -/
def proctorRestoreFuel : Nat → List (Nat × K) → Option Nat → List (Nat × K)
  | 0, q, _ => q
  | fuel + 1, q, lastRec =>
    if q.getLast?.map (fun p => p.1) = lastRec then q
    else proctorRestoreFuel fuel q.dropLast lastRec

/-- Destructor of `Cache_QueueProctor` when `release` was not called. -/
def proctorRestore (q : List (Nat × K)) (lastRec : Option Nat) :
    List (Nat × K) :=
  proctorRestoreFuel q.length q lastRec

/-- Run of an insert in which the `d_map.emplace` call throws (allocation or
hash failure): the controller has already run, the key was found absent, the
queue proctor recorded the tail, the key was appended to the queue, and the
throw then unwinds through the proctor's destructor, which restores the
queue.  When the key is found present no `emplace` is reached and the run is
the ordinary replacement.  The second component is the callback-invocation
sequence (produced by the controller). -/
def insertEmplaceThrow (s : Cache K V) (key : K) : Cache K V × List V :=
  let r := enforceHighWatermark s
  let s1 := r.1
  match mapFind s1.map key with
  | some e =>
    ({ s1 with
        map := setValueAt s1.map key e.2.1,
        queue := spliceToBack s1.queue e.2.2 }, r.2)
  | none =>
    let lastRec := s1.queue.getLast?.map (fun p => p.1)
    let q2 := s1.queue ++ [(s1.nextId, key)]
    ({ s1 with
        queue := proctorRestore q2 lastRec,
        nextId := s1.nextId + 1 }, r.2)

/-- Variant of `evictItem` for a post-eviction callback that may throw:
`throws v` says whether the callback throws when invoked with handle `v`.
The entry is fully removed from both containers before the callback runs;
a throw propagates with the already-updated state (`Except.error`). -/
def evictItemT (throws : V → Bool) (s : Cache K V) (e : K × V × Nat) :
    Except (Cache K V) (Cache K V) :=
  let s' := (evictItem s e).1
  if s.hasCallback && throws e.2.1 then Except.error s' else Except.ok s'

/-- Eviction loop under a throwing callback: a throw abandons the remaining
iterations and propagates. -/
def enforceLoopT (throws : V → Bool) :
    Nat → Cache K V → Except (Cache K V) (Cache K V)
  | 0, s => Except.ok s
  | fuel + 1, s =>
    if s.lowWatermark ≤ s.map.length ∧ 0 < s.map.length then
      match s.queue with
      | [] => Except.ok s
      | p :: _ =>
        match mapFind s.map p.2 with
        | none => Except.ok s
        | some e =>
          match evictItemT throws s e with
          | Except.error t => Except.error t
          | Except.ok s' => enforceLoopT throws fuel s'
    else Except.ok s

/-- `Cache::enforceHighWatermark` under a throwing callback. -/
def enforceHighWatermarkT (throws : V → Bool) (s : Cache K V) :
    Except (Cache K V) (Cache K V) :=
  if s.map.length < s.highWatermark then Except.ok s
  else enforceLoopT throws s.map.length s

/-- An insert under a throwing callback: the exception thrown inside the
eviction burst propagates out of the insert, whose own work never starts. -/
def insertT (throws : V → Bool) (s : Cache K V) (key : K) (value : V) :
    Except (Cache K V) (Cache K V × Bool) :=
  match enforceHighWatermarkT throws s with
  | Except.error t => Except.error t
  | Except.ok s1 => Except.ok (insertAfterEnforce s1 key value)

/-- Number of entries removed by an eviction burst started at state `s`
(zero when the size is already below the low watermark). -/
def burstCount (s : Cache K V) : Nat :=
  s.map.length + 1 - s.lowWatermark

/-- Map contents after erasing, in order, the key of each of the listed
queue nodes (the map side of an eviction burst). -/
def evictedMap (m : List (K × V × Nat)) (ps : List (Nat × K)) :
    List (K × V × Nat) :=
  ps.foldl (fun mm p => mm.eraseP (fun q => decide (q.1 = p.2))) m

/-- Structural invariant coupling `d_map` and `d_queue` (spec Invariants 1
and 2, together with the bookkeeping facts that make them inductive): the
sizes agree; every map entry's cursor designates a live queue node carrying
the entry's key; every queue node's key has a map entry whose cursor
designates that node; map keys are pairwise distinct; queue node ids are
pairwise distinct; and every queue node id is below `nextId`. -/
def Good (s : Cache K V) : Prop :=
  s.map.length = s.queue.length ∧
  (∀ e ∈ s.map, (e.2.2, e.1) ∈ s.queue) ∧
  (∀ p ∈ s.queue, ∃ e ∈ s.map, e.1 = p.2 ∧ e.2.2 = p.1) ∧
  (s.map.map (fun e => e.1)).Nodup ∧
  (s.queue.map (fun p => p.1)).Nodup ∧
  (∀ p ∈ s.queue, p.1 < s.nextId)

instance goodDecidable (s : Cache K V) : Decidable (Good s) := by
  unfold Good
  infer_instance

/-- A live LRU cache with watermarks 2/3, three entries, callback set:
queue holds keys 10, 11, 12 (front first) in nodes 0, 1, 2. -/
def exA : Cache Nat Nat :=
  ⟨[(0, 10), (1, 11), (2, 12)],
   [(10, 100, 0), (11, 101, 1), (12, 102, 2)],
   3, CacheEvictionPolicy.e_LRU, 2, 3, true⟩

/-- A roomy cache (watermarks 5/9) with a single entry and no callback. -/
def exB : Cache Nat Nat :=
  ⟨[(0, 10)], [(10, 100, 0)], 1, CacheEvictionPolicy.e_LRU, 5, 9, false⟩

/-- A full cache at its high watermark 2 (low watermark 1), callback set. -/
def exC : Cache Nat Nat :=
  ⟨[(0, 0), (1, 1)], [(0, 100, 0), (1, 101, 1)],
   2, CacheEvictionPolicy.e_LRU, 1, 2, true⟩

/-- An empty cache with watermarks 1/1. -/
def exD : Cache Nat Nat :=
  ⟨[], [], 0, CacheEvictionPolicy.e_LRU, 1, 1, false⟩

/-- A one-entry cache with watermarks 1/1 and no callback. -/
def exE : Cache Nat Nat :=
  ⟨[(0, 0)], [(0, 100, 0)], 1, CacheEvictionPolicy.e_LRU, 1, 1, false⟩

/-! Generic association-list facts used throughout: a list whose image under
a projection is duplicate-free determines its elements by that projection. -/

theorem field_unique {α β : Type} {f : α → β} {l : List α}
    (hnd : (l.map f).Nodup) {a b : α} (ha : a ∈ l) (hb : b ∈ l)
    (h : f a = f b) : a = b := by
  induction l with
  | nil => cases ha
  | cons x t ih =>
    rw [List.map_cons, List.nodup_cons] at hnd
    rcases List.mem_cons.1 ha with rfl | ha' <;>
      rcases List.mem_cons.1 hb with rfl | hb'
    · rfl
    · exact absurd (h ▸ List.mem_map_of_mem f hb') hnd.1
    · exact absurd (h ▸ List.mem_map_of_mem f ha') hnd.1
    · exact ih hnd.2 ha' hb'

theorem find?_field_of_mem {α β : Type} [DecidableEq β] {f : α → β}
    {l : List α} (hnd : (l.map f).Nodup) {x : α} (hx : x ∈ l) :
    l.find? (fun y => decide (f y = f x)) = some x := by
  induction l with
  | nil => cases hx
  | cons h t ih =>
    rw [List.map_cons, List.nodup_cons] at hnd
    rcases List.mem_cons.1 hx with rfl | hx'
    · exact List.find?_cons_of_pos _ (by simp)
    · by_cases hh : f h = f x
      · exact absurd (hh ▸ List.mem_map_of_mem f hx') hnd.1
      · rw [List.find?_cons_of_neg _ (by simpa using hh)]
        exact ih hnd.2 hx'

theorem mem_eraseP_field {α β : Type} [DecidableEq β] {f : α → β} {a : β}
    {l : List α} (hnd : (l.map f).Nodup) {x : α} :
    x ∈ l.eraseP (fun y => decide (f y = a)) ↔ x ∈ l ∧ f x ≠ a := by
  induction l with
  | nil => simp
  | cons h t ih =>
    rw [List.map_cons, List.nodup_cons] at hnd
    by_cases hh : f h = a
    · rw [List.eraseP_cons_of_pos (by simpa using hh)]
      constructor
      · intro hx
        refine ⟨List.mem_cons_of_mem _ hx, fun hfx => ?_⟩
        exact hnd.1 (hh ▸ hfx ▸ List.mem_map_of_mem f hx)
      · rintro ⟨hx, hfx⟩
        rcases List.mem_cons.1 hx with rfl | hx'
        · exact absurd hh hfx
        · exact hx'
    · rw [List.eraseP_cons_of_neg (by simpa using hh)]
      constructor
      · intro hx
        rcases List.mem_cons.1 hx with rfl | hx'
        · exact ⟨List.mem_cons_self _ _, hh⟩
        · have := (ih hnd.2).1 hx'
          exact ⟨List.mem_cons_of_mem _ this.1, this.2⟩
      · rintro ⟨hx, hfx⟩
        rcases List.mem_cons.1 hx with rfl | hx'
        · exact List.mem_cons_self _ _
        · exact List.mem_cons_of_mem _ ((ih hnd.2).2 ⟨hx', hfx⟩)

theorem find?_eraseP_incompat {α : Type} {p q : α → Bool}
    (h : ∀ x, p x = true → q x = false) :
    ∀ l : List α, (l.eraseP p).find? q = l.find? q := by
  intro l
  induction l with
  | nil => rfl
  | cons x t ih =>
    by_cases hp : p x = true
    · rw [List.eraseP_cons_of_pos hp, List.find?_cons_of_neg _ (by simp [h x hp])]
    · rw [List.eraseP_cons_of_neg hp]
      cases hq : q x with
      | true => rw [List.find?_cons_of_pos _ hq, List.find?_cons_of_pos _ hq]
      | false =>
        rw [List.find?_cons_of_neg _ (by simp [hq]),
          List.find?_cons_of_neg _ (by simp [hq])]
        exact ih

theorem length_filterMap_of_isSome {α β : Type} {g : α → Option β} :
    ∀ {l : List α}, (∀ x ∈ l, (g x).isSome) →
      (l.filterMap g).length = l.length := by
  intro l
  induction l with
  | nil => simp
  | cons x t ih =>
    intro h
    have hx := h x (List.mem_cons_self _ _)
    rcases Option.isSome_iff_exists.1 hx with ⟨b, hb⟩
    rw [List.filterMap_cons, hb, List.length_cons]
    rw [ih fun y hy => h y (List.mem_cons_of_mem _ hy)]
    rfl

theorem filter_field_singleton {α β : Type} [DecidableEq β] (f : α → β)
    {l : List α} (hnd : (l.map f).Nodup) {x : α} (hx : x ∈ l) :
    (l.filter (fun y => decide (f y = f x))).length = 1 := by
  induction l with
  | nil => cases hx
  | cons h t ih =>
    rw [List.map_cons, List.nodup_cons] at hnd
    rcases List.mem_cons.1 hx with rfl | hx'
    · rw [List.filter_cons, if_pos (by simp), List.length_cons]
      have ht : t.filter (fun y => decide (f y = f x)) = [] := by
        rw [List.filter_eq_nil_iff]
        intro y hy hfy
        rw [decide_eq_true_eq] at hfy
        exact hnd.1 (hfy ▸ List.mem_map_of_mem f hy)
      rw [ht]
      rfl
    · have hh : ¬(decide (f h = f x) = true) := by
        simp only [decide_eq_true_eq]
        exact fun hh => hnd.1 (hh ▸ List.mem_map_of_mem f hx')
      rw [List.filter_cons, if_neg hh]
      exact ih hnd.2 hx'

/-! Facts about `mapFind`. -/

theorem mapFind_some {m : List (K × V × Nat)} {k : K} {e : K × V × Nat}
    (h : mapFind m k = some e) : e ∈ m ∧ e.1 = k := by
  unfold mapFind at h
  have h1 := @List.find?_some (K × V × Nat) (fun e => decide (e.1 = k)) e m h
  simp only [decide_eq_true_eq] at h1
  exact ⟨List.mem_of_find?_eq_some h, h1⟩

theorem mapFind_none {m : List (K × V × Nat)} {k : K}
    (h : mapFind m k = none) : ∀ e ∈ m, e.1 ≠ k := by
  unfold mapFind at h
  intro e he
  have := List.find?_eq_none.1 h e he
  simpa using this

theorem mapFind_of_mem {m : List (K × V × Nat)}
    (hnd : (m.map (fun e => e.1)).Nodup) {e : K × V × Nat} (he : e ∈ m) :
    mapFind m e.1 = some e :=
  find?_field_of_mem hnd he

/-! Facts derived from the `Good` invariant. -/

theorem good_queue_nodup {s : Cache K V} (hG : Good s) : s.queue.Nodup :=
  List.Nodup.of_map _ hG.2.2.2.2.1

theorem good_entry_of_node {s : Cache K V} (hG : Good s) {p : Nat × K}
    (hp : p ∈ s.queue) :
    ∃ e ∈ s.map, mapFind s.map p.2 = some e ∧ e.1 = p.2 ∧ e.2.2 = p.1 := by
  obtain ⟨e, he, hk, hc⟩ := hG.2.2.1 p hp
  refine ⟨e, he, ?_, hk, hc⟩
  have := mapFind_of_mem hG.2.2.2.1 he
  rwa [hk] at this

theorem good_queue_keys_nodup {s : Cache K V} (hG : Good s) :
    (s.queue.map (fun p => p.2)).Nodup := by
  refine List.Nodup.map_on ?_ (good_queue_nodup hG)
  intro p hp p' hp' hk
  obtain ⟨e, he, _, hek, hec⟩ := good_entry_of_node hG hp
  obtain ⟨e', he', _, hek', hec'⟩ := good_entry_of_node hG hp'
  have : e = e' := field_unique hG.2.2.2.1 he he' (by rw [hek, hek', hk])
  have hid : p.1 = p'.1 := by rw [← hec, this, hec']
  exact field_unique hG.2.2.2.2.1 hp hp' hid

/-! Effect of `evictItem` on a `Good` state. -/

theorem evictItem_good {s : Cache K V} {k : K} {e : K × V × Nat}
    (hG : Good s) (hf : mapFind s.map k = some e) :
    Good (evictItem s e).1 ∧
    (evictItem s e).1.map.length + 1 = s.map.length := by
  obtain ⟨hlen, hmq, hqm, hndk, hndi, hbd⟩ := hG
  obtain ⟨hem, _⟩ := mapFind_some hf
  have hnode : (e.2.2, e.1) ∈ s.queue := hmq e hem
  have hmaplen : (s.map.eraseP (fun q => decide (q.1 = e.1))).length + 1 =
      s.map.length := by
    rw [List.length_eraseP_of_mem hem (by simp)]
    have : 0 < s.map.length := List.length_pos_of_mem hem
    omega
  have hqlen : (s.queue.eraseP (fun p => decide (p.1 = e.2.2))).length + 1 =
      s.queue.length := by
    rw [List.length_eraseP_of_mem hnode (by simp)]
    have : 0 < s.queue.length := List.length_pos_of_mem hnode
    omega
  refine ⟨⟨?_, ?_, ?_, ?_, ?_, ?_⟩, hmaplen⟩
  · show (s.map.eraseP _).length = (s.queue.eraseP _).length
    omega
  · intro x hx
    obtain ⟨hxm, hxk⟩ := (mem_eraseP_field hndk).1 hx
    have hxnode : (x.2.2, x.1) ∈ s.queue := hmq x hxm
    refine (mem_eraseP_field hndi).2 ⟨hxnode, ?_⟩
    intro hid
    have : (x.2.2, x.1) = (e.2.2, e.1) :=
      field_unique hndi hxnode hnode (by simpa using hid)
    exact hxk (by simpa using congrArg Prod.snd this)
  · intro p hp
    obtain ⟨hpq, hpid⟩ := (mem_eraseP_field hndi).1 hp
    obtain ⟨y, hy, hyk, hyc⟩ := hqm p hpq
    refine ⟨y, ?_, hyk, hyc⟩
    refine (mem_eraseP_field hndk).2 ⟨hy, ?_⟩
    intro hyk'
    have : y = e := field_unique hndk hy hem hyk'
    exact hpid (by rw [← hyc, this])
  · exact List.Nodup.sublist (List.Sublist.map _ (List.eraseP_sublist _)) hndk
  · exact List.Nodup.sublist (List.Sublist.map _ (List.eraseP_sublist _)) hndi
  · intro p hp
    exact hbd p (List.mem_of_mem_eraseP hp)

/-! Facts about `setValueAt` and `spliceToBack`. -/

theorem setValueAt_length (m : List (K × V × Nat)) (k : K) (v : V) :
    (setValueAt m k v).length = m.length := by
  induction m with
  | nil => rfl
  | cons q rest ih =>
    unfold setValueAt
    by_cases h : q.1 = k <;> simp [h, ih]

theorem setValueAt_keyCursor (m : List (K × V × Nat)) (k : K) (v : V) :
    (setValueAt m k v).map (fun e => (e.1, e.2.2)) =
      m.map (fun e => (e.1, e.2.2)) := by
  induction m with
  | nil => rfl
  | cons q rest ih =>
    unfold setValueAt
    by_cases h : q.1 = k <;> simp [h, ih]

theorem setValueAt_keys (m : List (K × V × Nat)) (k : K) (v : V) :
    (setValueAt m k v).map (fun e => e.1) = m.map (fun e => e.1) := by
  induction m with
  | nil => rfl
  | cons q rest ih =>
    unfold setValueAt
    by_cases h : q.1 = k <;> simp [h, ih]

theorem mapFind_setValueAt_self {m : List (K × V × Nat)} {k : K} {v : V}
    {e : K × V × Nat} (h : mapFind m k = some e) :
    mapFind (setValueAt m k v) k = some (e.1, v, e.2.2) := by
  induction m with
  | nil => simp [mapFind] at h
  | cons q rest ih =>
    unfold setValueAt
    by_cases hq : q.1 = k
    · rw [if_pos hq]
      unfold mapFind at h ⊢
      rw [List.find?_cons_of_pos _ (by simpa using hq)] at h
      have : q = e := Option.some.inj h
      subst this
      rw [List.find?_cons_of_pos _ (by simpa using hq)]
    · rw [if_neg hq]
      unfold mapFind at h ⊢
      rw [List.find?_cons_of_neg _ (by simpa using hq)] at h
      rw [List.find?_cons_of_neg _ (by simpa using hq)]
      exact ih h

theorem eraseP_concat_perm {α : Type} {p : α → Bool} :
    ∀ {l : List α} {a : α}, l.find? p = some a →
      (l.eraseP p ++ [a]).Perm l := by
  intro l
  induction l with
  | nil => intro a h; cases h
  | cons x t ih =>
    intro a h
    by_cases hp : p x = true
    · rw [List.find?_cons_of_pos _ hp] at h
      have : x = a := Option.some.inj h
      subst this
      rw [List.eraseP_cons_of_pos hp]
      exact List.perm_append_singleton _ _
    · rw [List.find?_cons_of_neg _ hp] at h
      rw [List.eraseP_cons_of_neg hp]
      simpa using List.Perm.cons x (ih h)

theorem spliceToBack_spec {q : List (Nat × K)} {c : Nat}
    (hnd : (q.map (fun p => p.1)).Nodup) {node : Nat × K} (hm : node ∈ q)
    (hc : node.1 = c) :
    (spliceToBack q c).Perm q ∧
    spliceToBack q c = q.eraseP (fun p => decide (p.1 = c)) ++ [node] ∧
    (spliceToBack q c).getLast? = some node := by
  have hfind : q.find? (fun p => decide (p.1 = c)) = some node := by
    have := find?_field_of_mem hnd hm
    rwa [hc] at this
  unfold spliceToBack
  rw [hfind]
  exact ⟨eraseP_concat_perm hfind, rfl, List.getLast?_concat _⟩

/-! Field-preservation facts (the operations only touch `queue`, `map` and
`nextId`). -/

theorem evictItem_fields (s : Cache K V) (e : K × V × Nat) :
    (evictItem s e).1.nextId = s.nextId ∧
    (evictItem s e).1.lowWatermark = s.lowWatermark ∧
    (evictItem s e).1.highWatermark = s.highWatermark ∧
    (evictItem s e).1.evictionPolicy = s.evictionPolicy ∧
    (evictItem s e).1.hasCallback = s.hasCallback :=
  ⟨rfl, rfl, rfl, rfl, rfl⟩

theorem insertAfterEnforce_fields (s : Cache K V) (key : K) (v : V) :
    (insertAfterEnforce s key v).1.lowWatermark = s.lowWatermark ∧
    (insertAfterEnforce s key v).1.highWatermark = s.highWatermark ∧
    (insertAfterEnforce s key v).1.evictionPolicy = s.evictionPolicy ∧
    (insertAfterEnforce s key v).1.hasCallback = s.hasCallback := by
  unfold insertAfterEnforce
  cases mapFind s.map key <;> exact ⟨rfl, rfl, rfl, rfl⟩

/-- Reduction of `insertAfterEnforce` on an absent key. -/
theorem insertAfterEnforce_none {s : Cache K V} {key : K} {v : V}
    (hfind : mapFind s.map key = none) :
    insertAfterEnforce s key v =
      ({ s with
          queue := s.queue ++ [(s.nextId, key)],
          map := s.map ++ [(key, v, s.nextId)],
          nextId := s.nextId + 1 }, true) := by
  unfold insertAfterEnforce
  rw [hfind]

/-- Reduction of `insertAfterEnforce` on a present key. -/
theorem insertAfterEnforce_some {s : Cache K V} {key : K} {v : V}
    {e : K × V × Nat} (hfind : mapFind s.map key = some e) :
    insertAfterEnforce s key v =
      ({ s with
          map := setValueAt s.map key v,
          queue := spliceToBack s.queue e.2.2 }, false) := by
  unfold insertAfterEnforce
  rw [hfind]

/-! Preservation of `Good` by the insert primitive (after eviction). -/

theorem insertAfterEnforce_good {s : Cache K V} {key : K} {v : V}
    (hG : Good s) : Good (insertAfterEnforce s key v).1 := by
  obtain ⟨hlen, hmq, hqm, hndk, hndi, hbd⟩ := hG
  cases hfind : mapFind s.map key with
  | none =>
    rw [insertAfterEnforce_none hfind]
    dsimp only
    have hkeyfresh := mapFind_none hfind
    refine ⟨?_, ?_, ?_, ?_, ?_, ?_⟩
    · simp [hlen]
    · intro x hx
      rcases List.mem_append.1 hx with hx' | hx'
      · exact List.mem_append_left _ (hmq x hx')
      · have : x = (key, v, s.nextId) := by simpa using hx'
        subst this
        simp
    · intro p hp
      rcases List.mem_append.1 hp with hp' | hp'
      · obtain ⟨y, hy, hyk, hyc⟩ := hqm p hp'
        exact ⟨y, List.mem_append_left _ hy, hyk, hyc⟩
      · have : p = (s.nextId, key) := by simpa using hp'
        subst this
        exact ⟨(key, v, s.nextId), List.mem_append_right _ (by simp), rfl, rfl⟩
    · rw [List.map_append, List.nodup_append]
      refine ⟨hndk, by simp, ?_⟩
      intro a ha hb
      simp only [List.map_cons, List.map_nil, List.mem_singleton] at hb
      obtain ⟨y, hy, hyk⟩ := List.mem_map.1 ha
      exact hkeyfresh y hy (hyk.trans hb)
    · rw [List.map_append, List.nodup_append]
      refine ⟨hndi, by simp, ?_⟩
      intro a ha hb
      simp only [List.map_cons, List.map_nil, List.mem_singleton] at hb
      obtain ⟨y, hy, hyk⟩ := List.mem_map.1 ha
      have := hbd y hy
      omega
    · intro p hp
      rcases List.mem_append.1 hp with hp' | hp'
      · have := hbd p hp'
        show p.1 < s.nextId + 1
        omega
      · have : p = (s.nextId, key) := by simpa using hp'
        subst this
        show s.nextId < s.nextId + 1
        omega
  | some e =>
    rw [insertAfterEnforce_some hfind]
    dsimp only
    obtain ⟨hem, hek⟩ := mapFind_some hfind
    have hnode : (e.2.2, e.1) ∈ s.queue := hmq e hem
    obtain ⟨hperm, _, _⟩ := spliceToBack_spec hndi hnode rfl
    refine ⟨?_, ?_, ?_, ?_, ?_, ?_⟩
    · rw [setValueAt_length, hperm.length_eq, hlen]
    · intro x hx
      have hpair : (x.1, x.2.2) ∈ s.map.map (fun e => (e.1, e.2.2)) := by
        rw [← setValueAt_keyCursor s.map key v]
        exact List.mem_map_of_mem _ hx
      obtain ⟨y, hy, hyeq⟩ := List.mem_map.1 hpair
      have h1 : y.1 = x.1 := (Prod.ext_iff.1 hyeq).1
      have h2 : y.2.2 = x.2.2 := (Prod.ext_iff.1 hyeq).2
      have := hmq y hy
      rw [h1, h2] at this
      exact hperm.mem_iff.2 this
    · intro p hp
      have hpq : p ∈ s.queue := hperm.mem_iff.1 hp
      obtain ⟨y, hy, hyk, hyc⟩ := hqm p hpq
      have hpair : (y.1, y.2.2) ∈
          (setValueAt s.map key v).map (fun e => (e.1, e.2.2)) := by
        rw [setValueAt_keyCursor s.map key v]
        exact List.mem_map_of_mem _ hy
      obtain ⟨x, hx, hxeq⟩ := List.mem_map.1 hpair
      have h1 : x.1 = y.1 := (Prod.ext_iff.1 hxeq).1
      have h2 : x.2.2 = y.2.2 := (Prod.ext_iff.1 hxeq).2
      exact ⟨x, hx, h1.trans hyk, h2.trans hyc⟩
    · rw [setValueAt_keys]
      exact hndk
    · exact (List.Perm.nodup_iff (List.Perm.map _ hperm)).2 hndi
    · intro p hp
      exact hbd p (hperm.mem_iff.1 hp)

/-! Characterization of the eviction loop. -/

theorem evictedMap_cons (m : List (K × V × Nat)) (p : Nat × K)
    (ps : List (Nat × K)) :
    evictedMap m (p :: ps) =
      evictedMap (m.eraseP (fun q => decide (q.1 = p.2))) ps := rfl

theorem enforceLoop_spec :
    ∀ (fuel : Nat) (s : Cache K V), Good s → 1 ≤ s.lowWatermark →
      s.map.length ≤ fuel →
      Good (enforceLoop fuel s).1 ∧
      (enforceLoop fuel s).1.queue = s.queue.drop (burstCount s) ∧
      (enforceLoop fuel s).1.map =
        evictedMap s.map (s.queue.take (burstCount s)) ∧
      (enforceLoop fuel s).2 =
        (if s.hasCallback then
          (s.queue.take (burstCount s)).filterMap
            (fun p => (mapFind s.map p.2).map (fun e => e.2.1))
         else []) ∧
      (enforceLoop fuel s).1.map.length + burstCount s = s.map.length ∧
      (enforceLoop fuel s).1.nextId = s.nextId ∧
      (enforceLoop fuel s).1.lowWatermark = s.lowWatermark ∧
      (enforceLoop fuel s).1.highWatermark = s.highWatermark ∧
      (enforceLoop fuel s).1.evictionPolicy = s.evictionPolicy ∧
      (enforceLoop fuel s).1.hasCallback = s.hasCallback := by
  intro fuel
  induction fuel with
  | zero =>
    intro s hG h1 hf
    have hm0 : s.map.length = 0 := Nat.le_zero.1 hf
    have hbc : burstCount s = 0 := by unfold burstCount; omega
    refine ⟨hG, ?_, ?_, ?_, ?_, rfl, rfl, rfl, rfl, rfl⟩
    · rw [hbc]; rfl
    · rw [hbc]; rfl
    · rw [hbc]
      cases s.hasCallback <;> simp [enforceLoop]
    · rw [hbc]
      rfl
  | succ fuel ih =>
    intro s hG h1 hf
    by_cases hguard : s.lowWatermark ≤ s.map.length ∧ 0 < s.map.length
    · -- the loop body runs once and recurses
      have hqne : s.queue ≠ [] := by
        intro hnil
        have hql := hG.1
        rw [hnil, List.length_nil] at hql
        omega
      obtain ⟨p, qt, hq⟩ := List.exists_cons_of_ne_nil hqne
      have hpmem : p ∈ s.queue := by rw [hq]; exact List.mem_cons_self _ _
      obtain ⟨e, hem, hfind, hek, hec⟩ := good_entry_of_node hG hpmem
      have hstep : enforceLoop (fuel + 1) s =
          ((enforceLoop fuel (evictItem s e).1).1,
           (evictItem s e).2 ++ (enforceLoop fuel (evictItem s e).1).2) := by
        conv_lhs => rw [enforceLoop]
        rw [if_pos hguard, hq]
        dsimp only
        rw [hfind]
      obtain ⟨hGood', hlen'⟩ := evictItem_good hG hfind
      obtain ⟨hfn, hfl, hfh, hfp, hfcb⟩ := evictItem_fields s e
      have h1' : 1 ≤ (evictItem s e).1.lowWatermark := by rw [hfl]; exact h1
      have hf' : (evictItem s e).1.map.length ≤ fuel := by omega
      obtain ⟨ihG, ihq, ihm, ihev, ihlen, ihn, ihl, ihh, ihp, ihcb⟩ :=
        ih (evictItem s e).1 hGood' h1' hf'
      have hq' : (evictItem s e).1.queue = qt := by
        show s.queue.eraseP (fun x => decide (x.1 = e.2.2)) = qt
        rw [hq, hec]
        exact List.eraseP_cons_of_pos (by simp)
      have hm' : (evictItem s e).1.map =
          s.map.eraseP (fun q => decide (q.1 = p.2)) := by
        show s.map.eraseP (fun q => decide (q.1 = e.1)) = _
        rw [hek]
      have hbc : burstCount s = burstCount (evictItem s e).1 + 1 := by
        unfold burstCount
        rw [hfl]
        omega
      have hkeys : p.2 ∉ qt.map (fun x => x.2) := by
        have hkn := good_queue_keys_nodup hG
        rw [hq, List.map_cons, List.nodup_cons] at hkn
        exact hkn.1
      have hcongr : ∀ x ∈ qt.take (burstCount (evictItem s e).1),
          ((mapFind (evictItem s e).1.map x.2).map (fun e => e.2.1)) =
          ((mapFind s.map x.2).map (fun e => e.2.1)) := by
        intro x hx
        have hxqt : x ∈ qt := (List.take_sublist _ _).subset hx
        have hxp : x.2 ≠ p.2 := by
          intro hxp
          exact hkeys (hxp ▸ List.mem_map_of_mem _ hxqt)
        have : mapFind (evictItem s e).1.map x.2 = mapFind s.map x.2 := by
          rw [hm']
          unfold mapFind
          refine find?_eraseP_incompat ?_ s.map
          intro y hy
          rw [decide_eq_true_eq] at hy
          rw [decide_eq_false_iff_not, hy]
          exact fun hcontra => hxp hcontra.symm
        rw [this]
      rw [hstep]
      refine ⟨ihG, ?_, ?_, ?_, ?_, ?_, ?_, ?_, ?_, ?_⟩
      · show (enforceLoop fuel (evictItem s e).1).1.queue =
          s.queue.drop (burstCount s)
        rw [hbc, hq, List.drop_succ_cons, ihq, hq']
      · show (enforceLoop fuel (evictItem s e).1).1.map =
          evictedMap s.map (s.queue.take (burstCount s))
        rw [hbc, hq, List.take_succ_cons, evictedMap_cons, ihm, hq', hm']
      · show (evictItem s e).2 ++ (enforceLoop fuel (evictItem s e).1).2 = _
        cases hcbv : s.hasCallback with
        | false =>
          have hev1 : (evictItem s e).2 = [] := by
            show (if s.hasCallback then [e.2.1] else []) = []
            rw [hcbv]
            rfl
          rw [hev1, ihev, hfcb, hcbv]
          simp
        | true =>
          have hev1 : (evictItem s e).2 = [e.2.1] := by
            show (if s.hasCallback then [e.2.1] else []) = [e.2.1]
            rw [hcbv]
            rfl
          rw [hev1, ihev, hfcb, hcbv, hq']
          rw [if_pos rfl, if_pos rfl, hbc, hq, List.take_succ_cons,
            List.filterMap_cons]
          rw [List.filterMap_congr hcongr]
          rw [hfind]
          rfl
      · show (enforceLoop fuel (evictItem s e).1).1.map.length +
          burstCount s = s.map.length
        omega
      · rw [ihn, hfn]
      · rw [ihl, hfl]
      · rw [ihh, hfh]
      · rw [ihp, hfp]
      · rw [ihcb, hfcb]
    · -- the guard fails: the loop exits at once
      have hrun : enforceLoop (fuel + 1) s = (s, []) := by
        unfold enforceLoop
        rw [if_neg hguard]
      have hlow : s.map.length < s.lowWatermark := by
        rcases Nat.lt_or_ge s.map.length s.lowWatermark with h | h
        · exact h
        · exact absurd ⟨h, by omega⟩ hguard
      have hbc : burstCount s = 0 := by unfold burstCount; omega
      rw [hrun]
      refine ⟨hG, ?_, ?_, ?_, ?_, rfl, rfl, rfl, rfl, rfl⟩
      · rw [hbc]; rfl
      · rw [hbc]; rfl
      · rw [hbc]
        cases s.hasCallback <;> simp
      · rw [hbc]
        rfl

/-! Corollaries for `enforceHighWatermark`. -/

theorem enforceHighWatermark_noTrigger {s : Cache K V}
    (h : s.map.length < s.highWatermark) :
    enforceHighWatermark s = (s, []) := by
  unfold enforceHighWatermark
  rw [if_pos h]

theorem enforceHighWatermark_good {s : Cache K V} (hG : Good s)
    (h1 : 1 ≤ s.lowWatermark) :
    Good (enforceHighWatermark s).1 ∧
    (enforceHighWatermark s).1.map.length ≤ s.map.length ∧
    (enforceHighWatermark s).1.nextId = s.nextId ∧
    (enforceHighWatermark s).1.lowWatermark = s.lowWatermark ∧
    (enforceHighWatermark s).1.highWatermark = s.highWatermark ∧
    (enforceHighWatermark s).1.evictionPolicy = s.evictionPolicy ∧
    (enforceHighWatermark s).1.hasCallback = s.hasCallback := by
  unfold enforceHighWatermark
  by_cases h : s.map.length < s.highWatermark
  · rw [if_pos h]
    exact ⟨hG, le_refl _, rfl, rfl, rfl, rfl, rfl⟩
  · rw [if_neg h]
    obtain ⟨g, _, _, _, hl, hn, hlw, hhw, hp, hcb⟩ :=
      enforceLoop_spec s.map.length s hG h1 (le_refl _)
    exact ⟨g, by omega, hn, hlw, hhw, hp, hcb⟩

theorem enforceHighWatermark_burst {s : Cache K V} (hG : Good s)
    (h1 : 1 ≤ s.lowWatermark) (hlh : s.lowWatermark ≤ s.highWatermark)
    (htrig : s.highWatermark ≤ s.map.length) :
    (enforceHighWatermark s).1.queue = s.queue.drop (burstCount s) ∧
    (enforceHighWatermark s).1.map =
      evictedMap s.map (s.queue.take (burstCount s)) ∧
    (enforceHighWatermark s).2 =
      (if s.hasCallback then
        (s.queue.take (burstCount s)).filterMap
          (fun p => (mapFind s.map p.2).map (fun e => e.2.1))
       else []) ∧
    (enforceHighWatermark s).1.map.length + 1 = s.lowWatermark ∧
    1 ≤ burstCount s := by
  have hrun : enforceHighWatermark s = enforceLoop s.map.length s := by
    unfold enforceHighWatermark
    rw [if_neg (by omega)]
  obtain ⟨_, hq, hm, hev, hlen, _⟩ :=
    enforceLoop_spec s.map.length s hG h1 (le_refl _)
  have hbc : burstCount s = s.map.length + 1 - s.lowWatermark := rfl
  rw [hrun]
  exact ⟨hq, hm, hev, by omega, by omega⟩

/-! Preservation of `Good` by the LRU splice of `tryGetValue`. -/

theorem good_spliceToBack {s : Cache K V} {e : K × V × Nat}
    (hG : Good s) (hem : e ∈ s.map) :
    Good { s with queue := spliceToBack s.queue e.2.2 } := by
  obtain ⟨hlen, hmq, hqm, hndk, hndi, hbd⟩ := hG
  have hnode : (e.2.2, e.1) ∈ s.queue := hmq e hem
  obtain ⟨hperm, _, _⟩ := spliceToBack_spec hndi hnode rfl
  refine ⟨?_, ?_, ?_, hndk, ?_, ?_⟩
  · rw [hperm.length_eq]
    exact hlen
  · intro x hx
    exact hperm.mem_iff.2 (hmq x hx)
  · intro p hp
    exact hqm p (hperm.mem_iff.1 hp)
  · exact (List.Perm.nodup_iff (List.Perm.map _ hperm)).2 hndi
  · intro p hp
    exact hbd p (hperm.mem_iff.1 hp)

/-! Branch-reduction lemmas for `tryGetValue`. -/

theorem tryGetValue_none {s : Cache K V} {key : K} {b : Bool}
    (hfind : mapFind s.map key = none) :
    tryGetValue s key b = (s, 1, none) := by
  unfold tryGetValue
  rw [hfind]

theorem tryGetValue_some_read {s : Cache K V} {key : K} {b : Bool}
    {e : K × V × Nat} (hfind : mapFind s.map key = some e)
    (hwl : (decide (s.evictionPolicy = CacheEvictionPolicy.e_LRU) && b)
      = false) :
    tryGetValue s key b = (s, 0, some e.2.1) := by
  unfold tryGetValue
  rw [hfind]
  dsimp only
  rw [hwl]
  rfl

theorem tryGetValue_some_write {s : Cache K V} {key : K} {b : Bool}
    {e : K × V × Nat} (hfind : mapFind s.map key = some e)
    (hwl : (decide (s.evictionPolicy = CacheEvictionPolicy.e_LRU) && b)
      = true) :
    tryGetValue s key b =
      (match s.queue.getLast? with
       | none => (s, 0, some e.2.1)
       | some lastNode =>
         if lastNode.1 = e.2.2 then (s, 0, some e.2.1)
         else ({ s with queue := spliceToBack s.queue e.2.2 },
               0, some e.2.1)) := by
  unfold tryGetValue
  rw [hfind]
  dsimp only
  rw [hwl]
  rfl

/-! Preservation of `Good` by every public operation, and the field facts
needed to chain operations. -/

theorem insertValuePtrMoveImp_good {s : Cache K V} (key : K) (v : V)
    (hG : Good s) (h1 : 1 ≤ s.lowWatermark) :
    Good (insertValuePtrMoveImp s key v).1 ∧
    (insertValuePtrMoveImp s key v).1.lowWatermark = s.lowWatermark ∧
    (insertValuePtrMoveImp s key v).1.highWatermark = s.highWatermark ∧
    (insertValuePtrMoveImp s key v).1.evictionPolicy = s.evictionPolicy ∧
    (insertValuePtrMoveImp s key v).1.hasCallback = s.hasCallback := by
  obtain ⟨g1, _, _, hlw, hhw, hp, hcb⟩ := enforceHighWatermark_good hG h1
  have hf := insertAfterEnforce_fields (enforceHighWatermark s).1 key v
  refine ⟨insertAfterEnforce_good g1, ?_, ?_, ?_, ?_⟩
  · show (insertAfterEnforce (enforceHighWatermark s).1 key v).1.lowWatermark
      = s.lowWatermark
    rw [hf.1, hlw]
  · show (insertAfterEnforce (enforceHighWatermark s).1 key v).1.highWatermark
      = s.highWatermark
    rw [hf.2.1, hhw]
  · show (insertAfterEnforce (enforceHighWatermark s).1 key v).1.evictionPolicy
      = s.evictionPolicy
    rw [hf.2.2.1, hp]
  · show (insertAfterEnforce (enforceHighWatermark s).1 key v).1.hasCallback
      = s.hasCallback
    rw [hf.2.2.2, hcb]

theorem insert_good {s : Cache K V} (key : K) (v : V)
    (hG : Good s) (h1 : 1 ≤ s.lowWatermark) :
    Good (insert s key v).1 ∧
    (insert s key v).1.lowWatermark = s.lowWatermark ∧
    (insert s key v).1.highWatermark = s.highWatermark ∧
    (insert s key v).1.evictionPolicy = s.evictionPolicy ∧
    (insert s key v).1.hasCallback = s.hasCallback :=
  insertValuePtrMoveImp_good key v hG h1

theorem insertBulk_good :
    ∀ (data : List (K × V)) (s : Cache K V), Good s → 1 ≤ s.lowWatermark →
      Good (insertBulk s data).1 ∧
      (insertBulk s data).1.lowWatermark = s.lowWatermark ∧
      (insertBulk s data).1.highWatermark = s.highWatermark ∧
      (insertBulk s data).1.hasCallback = s.hasCallback := by
  intro data
  induction data with
  | nil => exact fun s hG h1 => ⟨hG, rfl, rfl, rfl⟩
  | cons kv rest ih =>
    intro s hG h1
    obtain ⟨g, hlw, hhw, _, hcb⟩ := insertValuePtrMoveImp_good kv.1 kv.2 hG h1
    have h1' : 1 ≤ (insertValuePtrMoveImp s kv.1 kv.2).1.lowWatermark := by
      rw [hlw]; exact h1
    obtain ⟨g', hlw', hhw', hcb'⟩ :=
      ih (insertValuePtrMoveImp s kv.1 kv.2).1 g h1'
    have hfst : (insertBulk s (kv :: rest)).1 =
        (insertBulk (insertValuePtrMoveImp s kv.1 kv.2).1 rest).1 := rfl
    rw [hfst]
    exact ⟨g', by rw [hlw', hlw], by rw [hhw', hhw], by rw [hcb', hcb]⟩

theorem erase_good {s : Cache K V} {key : K} (hG : Good s) :
    Good (erase s key).1 := by
  unfold erase
  cases hfind : mapFind s.map key with
  | none => exact hG
  | some e => exact (evictItem_good hG hfind).1

theorem eraseBulk_cons_none {s : Cache K V} {k : K} {rest : List K}
    (hfind : mapFind s.map k = none) :
    eraseBulk s (k :: rest) = eraseBulk s rest := by
  conv_lhs => rw [eraseBulk]
  rw [hfind]

theorem eraseBulk_cons_some {s : Cache K V} {k : K} {rest : List K}
    {e : K × V × Nat} (hfind : mapFind s.map k = some e) :
    eraseBulk s (k :: rest) =
      ((eraseBulk (evictItem s e).1 rest).1,
       1 + (eraseBulk (evictItem s e).1 rest).2.1,
       (evictItem s e).2 ++ (eraseBulk (evictItem s e).1 rest).2.2) := by
  conv_lhs => rw [eraseBulk]
  rw [hfind]

theorem eraseBulk_good :
    ∀ (keys : List K) (s : Cache K V), Good s →
      Good (eraseBulk s keys).1 ∧
      (eraseBulk s keys).1.hasCallback = s.hasCallback ∧
      (eraseBulk s keys).1.map.length ≤ s.map.length ∧
      (s.hasCallback = true →
        (eraseBulk s keys).2.2.length = (eraseBulk s keys).2.1) := by
  intro keys
  induction keys with
  | nil => exact fun s hG => ⟨hG, rfl, le_refl _, fun _ => rfl⟩
  | cons k rest ih =>
    intro s hG
    cases hfind : mapFind s.map k with
    | none =>
      rw [eraseBulk_cons_none hfind]
      exact ih s hG
    | some e =>
      obtain ⟨g, hlen⟩ := evictItem_good hG hfind
      obtain ⟨g', hcb', hlen', hev'⟩ := ih (evictItem s e).1 g
      rw [eraseBulk_cons_some hfind]
      refine ⟨g', ?_, ?_, ?_⟩
      · show (eraseBulk (evictItem s e).1 rest).1.hasCallback = s.hasCallback
        rw [hcb']
        rfl
      · show (eraseBulk (evictItem s e).1 rest).1.map.length ≤ s.map.length
        omega
      · intro hcb
        show ((evictItem s e).2 ++
            (eraseBulk (evictItem s e).1 rest).2.2).length
          = 1 + (eraseBulk (evictItem s e).1 rest).2.1
        have hev1 : (evictItem s e).2 = [e.2.1] := by
          show (if s.hasCallback then [e.2.1] else []) = [e.2.1]
          rw [hcb]
          rfl
        have hcbs : (evictItem s e).1.hasCallback = true := hcb
        rw [hev1, List.length_append, hev' hcbs]
        simp

theorem popFront_good {s : Cache K V} (hG : Good s) :
    Good (popFront s).1 := by
  unfold popFront
  by_cases hpos : 0 < s.map.length
  · rw [if_pos hpos]
    cases hqv : s.queue with
    | nil => exact hG
    | cons p qt =>
      show Good ((match mapFind s.map p.2 with
        | none => (s, 0, ([] : List V))
        | some e => ((evictItem s e).1, 0, (evictItem s e).2)).1)
      cases hfind : mapFind s.map p.2 with
      | none => exact hG
      | some e => exact (evictItem_good hG hfind).1
  · rw [if_neg hpos]
    exact hG

theorem clear_good (s : Cache K V) : Good (clear s).1 := by
  refine ⟨rfl, ?_, ?_, ?_, ?_, ?_⟩ <;> simp [clear]

theorem tryGetValue_good {s : Cache K V} {key : K} {b : Bool} (hG : Good s) :
    Good (tryGetValue s key b).1 := by
  cases hfind : mapFind s.map key with
  | none => rw [tryGetValue_none hfind]; exact hG
  | some e =>
    cases hwl : (decide (s.evictionPolicy = CacheEvictionPolicy.e_LRU) && b) with
    | false => rw [tryGetValue_some_read hfind hwl]; exact hG
    | true =>
      rw [tryGetValue_some_write hfind hwl]
      cases hlast : s.queue.getLast? with
      | none => exact hG
      | some lastNode =>
        show Good ((if lastNode.1 = e.2.2 then (s, (0 : Nat), some e.2.1)
          else ({ s with queue := spliceToBack s.queue e.2.2 },
                0, some e.2.1)).1)
        by_cases heq : lastNode.1 = e.2.2
        · rw [if_pos heq]
          exact hG
        · rw [if_neg heq]
          exact good_spliceToBack hG (mapFind_some hfind).1

theorem setPostEvictionCallback_good {s : Cache K V} {b : Bool}
    (hG : Good s) : Good (setPostEvictionCallback s b) := by
  obtain ⟨hlen, hmq, hqm, hndk, hndi, hbd⟩ := hG
  exact ⟨hlen, hmq, hqm, hndk, hndi, hbd⟩

/-! Further branch lemmas used by the claim theorems. -/

theorem tryGetValue_hit_out {s : Cache K V} {key : K} {b : Bool}
    {e : K × V × Nat} (hfind : mapFind s.map key = some e) :
    (tryGetValue s key b).2 = (0, some e.2.1) := by
  cases hwl : (decide (s.evictionPolicy = CacheEvictionPolicy.e_LRU) && b) with
  | false => rw [tryGetValue_some_read hfind hwl]
  | true =>
    rw [tryGetValue_some_write hfind hwl]
    cases hlast : s.queue.getLast? with
    | none => rfl
    | some lastNode =>
      show ((if lastNode.1 = e.2.2 then (s, (0 : Nat), some e.2.1)
        else ({ s with queue := spliceToBack s.queue e.2.2 },
              0, some e.2.1))).2 = (0, some e.2.1)
      by_cases heq : lastNode.1 = e.2.2
      · rw [if_pos heq]
      · rw [if_neg heq]

theorem tryGetValue_map_eq {s : Cache K V} {key : K} {b : Bool} :
    (tryGetValue s key b).1.map = s.map := by
  cases hfind : mapFind s.map key with
  | none => rw [tryGetValue_none hfind]
  | some e =>
    cases hwl : (decide (s.evictionPolicy = CacheEvictionPolicy.e_LRU) && b) with
    | false => rw [tryGetValue_some_read hfind hwl]
    | true =>
      rw [tryGetValue_some_write hfind hwl]
      cases hlast : s.queue.getLast? with
      | none => rfl
      | some lastNode =>
        show ((if lastNode.1 = e.2.2 then (s, (0 : Nat), some e.2.1)
          else ({ s with queue := spliceToBack s.queue e.2.2 },
                0, some e.2.1))).1.map = s.map
        by_cases heq : lastNode.1 = e.2.2
        · rw [if_pos heq]
        · rw [if_neg heq]

theorem mem_of_getLast?_eq_some {α : Type} {l : List α} {a : α}
    (h : l.getLast? = some a) : a ∈ l := by
  have hne : l ≠ [] := by
    intro h0
    rw [h0] at h
    cases h
  rw [List.getLast?_eq_getLast l hne] at h
  have := Option.some.inj h
  rw [← this]
  exact List.getLast_mem hne

theorem queue_last_decomp {q : List (Nat × K)} {node : Nat × K}
    (hnd : (q.map (fun p => p.1)).Nodup)
    (hlast : q.getLast? = some node) :
    q = q.eraseP (fun p => decide (p.1 = node.1)) ++ [node] := by
  have hne : q ≠ [] := by
    intro h
    rw [h] at hlast
    cases hlast
  have hdecomp : q.dropLast ++ [q.getLast hne] = q :=
    List.dropLast_append_getLast hne
  have hgl : q.getLast hne = node := by
    have h2 := List.getLast?_eq_getLast q hne
    rw [h2] at hlast
    exact Option.some.inj hlast
  rw [hgl] at hdecomp
  have hnotin : ∀ x ∈ q.dropLast,
      ¬((fun p : Nat × K => decide (p.1 = node.1)) x = true) := by
    intro x hx
    simp only [decide_eq_true_eq]
    intro hxid
    rw [← hdecomp, List.map_append, List.nodup_append] at hnd
    exact hnd.2.2 (List.mem_map_of_mem _ hx) (by simp [hxid])
  have herase : q.eraseP (fun p => decide (p.1 = node.1)) = q.dropLast := by
    conv_lhs => rw [← hdecomp]
    rw [List.eraseP_append_right _ hnotin]
    rw [List.eraseP_cons_of_pos (by simp)]
    simp
  rw [herase]
  exact hdecomp.symm

theorem mapFind_append_fresh {m : List (K × V × Nat)} {k : K} {v : V}
    {c : Nat} (hfind : mapFind m k = none) :
    mapFind (m ++ [(k, v, c)]) k = some (k, v, c) := by
  unfold mapFind at hfind ⊢
  rw [List.find?_append, hfind, Option.none_or]
  exact List.find?_cons_of_pos _ (by simp)

theorem insertAfterEnforce_none_fst {s : Cache K V} {key : K} {v : V}
    (hfind : mapFind s.map key = none) :
    (insertAfterEnforce s key v).1 =
      { s with
          queue := s.queue ++ [(s.nextId, key)],
          map := s.map ++ [(key, v, s.nextId)],
          nextId := s.nextId + 1 } := by
  rw [insertAfterEnforce_none hfind]

theorem insertAfterEnforce_some_fst {s : Cache K V} {key : K} {v : V}
    {e : K × V × Nat} (hfind : mapFind s.map key = some e) :
    (insertAfterEnforce s key v).1 =
      { s with
          map := setValueAt s.map key v,
          queue := spliceToBack s.queue e.2.2 } := by
  rw [insertAfterEnforce_some hfind]

theorem insert_fst_noBurst {s : Cache K V} {key : K} {v : V}
    (hlow : s.map.length < s.highWatermark) :
    (insert s key v).1 = (insertAfterEnforce s key v).1 := by
  show (insertAfterEnforce (enforceHighWatermark s).1 key v).1 = _
  rw [enforceHighWatermark_noTrigger hlow]

theorem insert_events_noBurst {s : Cache K V} {key : K} {v : V}
    (hlow : s.map.length < s.highWatermark) :
    (insert s key v).2 = [] := by
  show (enforceHighWatermark s).2 = []
  rw [enforceHighWatermark_noTrigger hlow]

theorem proctorRestore_concat {q : List (Nat × K)} {n : Nat} {k : K}
    (hbd : ∀ p ∈ q, p.1 < n) :
    proctorRestore (q ++ [(n, k)]) (q.getLast?.map (fun p => p.1)) = q := by
  show proctorRestoreFuel (q ++ [(n, k)]).length (q ++ [(n, k)])
    (q.getLast?.map (fun p => p.1)) = q
  have hlen : (q ++ [(n, k)]).length = q.length + 1 := by simp
  rw [hlen]
  conv_lhs => rw [proctorRestoreFuel]
  have hne : (q ++ [(n, k)]).getLast?.map (fun p : Nat × K => p.1)
      = some n := by
    rw [List.getLast?_concat]
    rfl
  rw [hne]
  have hcond : ¬(some n = q.getLast?.map (fun p : Nat × K => p.1)) := by
    cases hq : q.getLast? with
    | none => simp
    | some lastNode =>
      have hlm : lastNode ∈ q := mem_of_getLast?_eq_some hq
      have := hbd lastNode hlm
      simp only [Option.map_some']
      intro hcontra
      have := Option.some.inj hcontra
      omega
  rw [if_neg hcond, List.dropLast_concat]
  cases hfuel : q.length with
  | zero => rfl
  | succ j =>
    conv_lhs => rw [proctorRestoreFuel]
    rw [if_pos rfl]

/-! Size bounds for the claim about the high watermark. -/

theorem insertValuePtrMoveImp_le_high {s : Cache K V} (key : K) (v : V)
    (hG : Good s) (h1 : 1 ≤ s.lowWatermark)
    (hlh : s.lowWatermark ≤ s.highWatermark) :
    (insertValuePtrMoveImp s key v).1.map.length ≤ s.highWatermark := by
  show (insertAfterEnforce (enforceHighWatermark s).1 key v).1.map.length
    ≤ s.highWatermark
  have hlen1 : (enforceHighWatermark s).1.map.length + 1 ≤ s.highWatermark + 1 := by
    by_cases htrig : s.highWatermark ≤ s.map.length
    · obtain ⟨_, _, _, hlen, _⟩ := enforceHighWatermark_burst hG h1 hlh htrig
      omega
    · have hs1 : (enforceHighWatermark s).1 = s := by
        rw [enforceHighWatermark_noTrigger (by omega)]
      rw [hs1]
      omega
  cases hfind : mapFind (enforceHighWatermark s).1.map key with
  | none =>
    rw [insertAfterEnforce_none_fst hfind]
    show ((enforceHighWatermark s).1.map ++
      [(key, v, (enforceHighWatermark s).1.nextId)]).length ≤ s.highWatermark
    rw [List.length_append]
    by_cases htrig : s.highWatermark ≤ s.map.length
    · obtain ⟨_, _, _, hlen, _⟩ := enforceHighWatermark_burst hG h1 hlh htrig
      simp only [List.length_cons, List.length_nil]
      omega
    · have hs1 : (enforceHighWatermark s).1 = s := by
        rw [enforceHighWatermark_noTrigger (by omega)]
      rw [hs1]
      simp only [List.length_cons, List.length_nil]
      omega
  | some e =>
    rw [insertAfterEnforce_some_fst hfind]
    show (setValueAt (enforceHighWatermark s).1.map key v).length
      ≤ s.highWatermark
    rw [setValueAt_length]
    by_cases htrig : s.highWatermark ≤ s.map.length
    · obtain ⟨_, _, _, hlen, _⟩ := enforceHighWatermark_burst hG h1 hlh htrig
      omega
    · have hs1 : (enforceHighWatermark s).1 = s := by
        rw [enforceHighWatermark_noTrigger (by omega)]
      rw [hs1]
      omega

theorem insertBulk_le_high :
    ∀ (data : List (K × V)) (s : Cache K V), Good s →
      1 ≤ s.lowWatermark → s.lowWatermark ≤ s.highWatermark →
      s.map.length ≤ s.highWatermark →
      (insertBulk s data).1.map.length ≤ s.highWatermark := by
  intro data
  induction data with
  | nil => exact fun s _ _ _ h => h
  | cons kv rest ih =>
    intro s hG h1 hlh _
    obtain ⟨g, hlw, hhw, _, _⟩ := insertValuePtrMoveImp_good kv.1 kv.2 hG h1
    have hfst : (insertBulk s (kv :: rest)).1 =
        (insertBulk (insertValuePtrMoveImp s kv.1 kv.2).1 rest).1 := rfl
    rw [hfst]
    have hb := ih (insertValuePtrMoveImp s kv.1 kv.2).1 g
      (by rw [hlw]; exact h1) (by rw [hlw, hhw]; exact hlh)
      (by rw [hhw]; exact insertValuePtrMoveImp_le_high kv.1 kv.2 hG h1 hlh)
    rw [hhw] at hb
    exact hb

theorem erase_len_le {s : Cache K V} {key : K} (hG : Good s) :
    (erase s key).1.map.length ≤ s.map.length := by
  unfold erase
  cases hfind : mapFind s.map key with
  | none => exact le_refl _
  | some e =>
    obtain ⟨_, hlen⟩ := evictItem_good hG hfind
    show (evictItem s e).1.map.length ≤ s.map.length
    omega

theorem popFront_len_le {s : Cache K V} (hG : Good s) :
    (popFront s).1.map.length ≤ s.map.length := by
  unfold popFront
  by_cases hpos : 0 < s.map.length
  · rw [if_pos hpos]
    cases hqv : s.queue with
    | nil => exact le_refl _
    | cons p qt =>
      show ((match mapFind s.map p.2 with
        | none => (s, 0, ([] : List V))
        | some e => ((evictItem s e).1, 0, (evictItem s e).2)).1).map.length
        ≤ s.map.length
      cases hfind : mapFind s.map p.2 with
      | none => exact le_refl _
      | some e =>
        obtain ⟨_, hlen⟩ := evictItem_good hG hfind
        show (evictItem s e).1.map.length ≤ s.map.length
        omega
  · rw [if_neg hpos]

/-! Reduction lemmas for `erase`, `popFront`, `insertEmplaceThrow` and the
throwing-callback controller. -/

theorem erase_none {s : Cache K V} {key : K}
    (hfind : mapFind s.map key = none) : erase s key = (s, 1, []) := by
  unfold erase
  rw [hfind]

theorem erase_some {s : Cache K V} {key : K} {e : K × V × Nat}
    (hfind : mapFind s.map key = some e) :
    erase s key = ((evictItem s e).1, 0, (evictItem s e).2) := by
  unfold erase
  rw [hfind]

theorem popFront_some {s : Cache K V} {p : Nat × K} {qt : List (Nat × K)}
    {e : K × V × Nat} (hpos : 0 < s.map.length) (hq : s.queue = p :: qt)
    (hfind : mapFind s.map p.2 = some e) :
    popFront s = ((evictItem s e).1, 0, (evictItem s e).2) := by
  unfold popFront
  rw [if_pos hpos, hq]
  dsimp only
  rw [hfind]

theorem insertEmplaceThrow_none {s : Cache K V} {key : K}
    (habs : mapFind (enforceHighWatermark s).1.map key = none) :
    insertEmplaceThrow s key =
      ({ (enforceHighWatermark s).1 with
          queue := proctorRestore
            ((enforceHighWatermark s).1.queue ++
              [((enforceHighWatermark s).1.nextId, key)])
            ((enforceHighWatermark s).1.queue.getLast?.map (fun p => p.1)),
          nextId := (enforceHighWatermark s).1.nextId + 1 },
       (enforceHighWatermark s).2) := by
  unfold insertEmplaceThrow
  dsimp only
  rw [habs]

theorem enforceHighWatermarkT_run {s : Cache K V} {throws : V → Bool}
    (htrig : s.highWatermark ≤ s.map.length) :
    enforceHighWatermarkT throws s = enforceLoopT throws s.map.length s := by
  unfold enforceHighWatermarkT
  rw [if_neg (by omega)]

/-! Claim theorems. -/

/-- C1: every insert variant begins by running the eviction controller
(`enforceHighWatermark`); when the size is at least the high watermark at
that point, entries are removed one at a time from the front of the
eviction queue - the resulting queue is the original queue with its first
`burstCount` nodes dropped, the resulting map is the original map with the
key of each of those nodes erased in order, and the post-eviction callback
(when set) receives the removed entries' value handles in that order -
until the size is strictly below the low watermark: immediately after the
burst the size is strictly below the low watermark.  The event list of the
whole insert is exactly the burst's. -/
theorem claim1_high_watermark_burst {K V : Type} [DecidableEq K]
    (s : Cache K V) (key : K) (v : V)
    (hG : Good s) (h1 : 1 ≤ s.lowWatermark)
    (hlh : s.lowWatermark ≤ s.highWatermark)
    (htrig : s.highWatermark ≤ s.map.length) :
    (enforceHighWatermark s).1.queue = s.queue.drop (burstCount s) ∧
    (enforceHighWatermark s).1.map =
      evictedMap s.map (s.queue.take (burstCount s)) ∧
    (enforceHighWatermark s).2 =
      (if s.hasCallback then
        (s.queue.take (burstCount s)).filterMap
          (fun p => (mapFind s.map p.2).map (fun e => e.2.1))
       else []) ∧
    (enforceHighWatermark s).1.map.length < s.lowWatermark ∧
    1 ≤ burstCount s ∧
    (insert s key v).2 = (enforceHighWatermark s).2 ∧
    (insertValuePtrMoveImp s key v).2.2 = (enforceHighWatermark s).2 := by
  obtain ⟨hq, hm, hev, hlen, hbc⟩ := enforceHighWatermark_burst hG h1 hlh htrig
  exact ⟨hq, hm, hev, by omega, hbc, rfl, rfl⟩

theorem claim1_witness :
    Good exA ∧
    (enforceHighWatermark exA).1.map.length < exA.lowWatermark ∧
    (enforceHighWatermark exA).1.queue = exA.queue.drop (burstCount exA) := by
  obtain ⟨hq, _, _, hlen, _⟩ :=
    claim1_high_watermark_burst exA 99 7 (by decide) (by decide) (by decide)
      (by decide)
  exact ⟨by decide, hlen, hq⟩

/-- C2: every public operation (all insert variants funnel through
`insert` and `insertBulk`; `erase`; `eraseBulk`; `popFront`; `clear`;
`tryGetValue`; `setPostEvictionCallback`; `visit`) preserves the coupling
invariant `Good`: the map and queue sizes agree, every map entry's cursor
designates a live queue node holding an equal key, and every queue node's
key has a corresponding map entry; `visit` does not change the state at
all. -/
theorem claim2_map_queue_coherence {K V : Type} [DecidableEq K]
    (s : Cache K V) (key : K) (v : V) (data : List (K × V)) (keys : List K)
    (b cb : Bool) (f : K → V → Bool)
    (hG : Good s) (h1 : 1 ≤ s.lowWatermark) :
    Good (insert s key v).1 ∧
    Good (insertBulk s data).1 ∧
    Good (erase s key).1 ∧
    Good (eraseBulk s keys).1 ∧
    Good (popFront s).1 ∧
    Good (clear s).1 ∧
    Good (tryGetValue s key b).1 ∧
    Good (setPostEvictionCallback s cb) ∧
    (visit s f).1 = s ∧ Good (visit s f).1 :=
  ⟨(insert_good key v hG h1).1, (insertBulk_good data s hG h1).1,
   erase_good hG, (eraseBulk_good keys s hG).1, popFront_good hG,
   clear_good s, tryGetValue_good hG, setPostEvictionCallback_good hG,
   rfl, hG⟩

theorem claim2_witness :
    Good (insert exA 10 5).1 ∧ Good (popFront exA).1 ∧
    Good (tryGetValue exA 10 true).1 := by
  obtain ⟨h1, _, _, _, h5, _, h7, _⟩ :=
    claim2_map_queue_coherence exA 10 5 [] [] true true (fun _ _ => true)
      (by decide) (by decide)
  exact ⟨h1, h5, h7⟩

/-- C3, claim as stated is false on the code: `insertValuePtrMoveImp` runs
`enforceHighWatermark` before looking the key up, so an insert of an
already-present key that begins at or above the high watermark does evict
entries (invoking the callback) and can change the size.  In `exC` (two
entries, low watermark 1, high watermark 2, callback set) the insert of
present key 1 evicts both entries - callback receiving handles 100
and 101 - and ends with size 1, not 2. -/
theorem claim3_counterexample :
    (mapFind exC.map 1).isSome = true ∧
    (insert exC 1 200).2 = [100, 101] ∧
    exC.map.length = 2 ∧
    (insert exC 1 200).1.map.length = 1 := by decide

/-- C3 amended: for every insert of an already-present key that begins
while the size is strictly below the high watermark, the eviction
controller removes nothing (no callback fires), the size is unchanged, and
the primitive reports a replacement (`false`). -/
theorem claim3_replace_below_high {K V : Type} [DecidableEq K]
    (s : Cache K V) (key : K) (v : V) (e : K × V × Nat)
    (hfind : mapFind s.map key = some e)
    (hlow : s.map.length < s.highWatermark) :
    (insert s key v).2 = [] ∧
    (insert s key v).1.map.length = s.map.length ∧
    (insertValuePtrMoveImp s key v).2.1 = false := by
  refine ⟨insert_events_noBurst hlow, ?_, ?_⟩
  · rw [insert_fst_noBurst hlow, insertAfterEnforce_some_fst hfind]
    show (setValueAt s.map key v).length = s.map.length
    exact setValueAt_length s.map key v
  · show (insertAfterEnforce (enforceHighWatermark s).1 key v).2 = false
    rw [enforceHighWatermark_noTrigger hlow]
    show (insertAfterEnforce s key v).2 = false
    rw [insertAfterEnforce_some hfind]

theorem claim3_witness :
    (insert exB 10 7).2 = [] ∧
    (insert exB 10 7).1.map.length = exB.map.length := by
  obtain ⟨h1, h2, _⟩ :=
    claim3_replace_below_high exB 10 7 (10, 100, 0) (by decide) (by decide)
  exact ⟨h1, h2⟩

/-- C4, claim as stated is false on the code: the size can equal the high
watermark right after an insert returns.  In `exD` (empty cache with both
watermarks 1) a single insert ends with size 1, which is not strictly
below the high watermark 1. -/
theorem claim4_counterexample :
    (insert exD 0 5).1.map.length = 1 ∧
    exD.highWatermark = 1 ∧
    1 ≤ exD.lowWatermark ∧ exD.lowWatermark ≤ exD.highWatermark ∧
    ¬((insert exD 0 5).1.map.length < exD.highWatermark) := by decide

/-- C4 amended: after an insert the size is at most the high watermark
(equality is reachable), `insertBulk` preserves `size ≤ high`, and no
other public operation increases the size (`clear` empties the cache;
`erase`, `eraseBulk` and `popFront` never grow it; `tryGetValue`,
`setPostEvictionCallback` and `visit` leave it unchanged). -/
theorem claim4_size_at_most_high {K V : Type} [DecidableEq K]
    (s : Cache K V) (key : K) (v : V) (data : List (K × V)) (keys : List K)
    (b cb : Bool) (f : K → V → Bool)
    (hG : Good s) (h1 : 1 ≤ s.lowWatermark)
    (hlh : s.lowWatermark ≤ s.highWatermark) :
    (insert s key v).1.map.length ≤ s.highWatermark ∧
    (s.map.length ≤ s.highWatermark →
      (insertBulk s data).1.map.length ≤ s.highWatermark) ∧
    (erase s key).1.map.length ≤ s.map.length ∧
    (eraseBulk s keys).1.map.length ≤ s.map.length ∧
    (popFront s).1.map.length ≤ s.map.length ∧
    (clear s).1.map.length = 0 ∧
    (tryGetValue s key b).1.map.length = s.map.length ∧
    (setPostEvictionCallback s cb).map.length = s.map.length ∧
    (visit s f).1.map.length = s.map.length :=
  ⟨insertValuePtrMoveImp_le_high key v hG h1 hlh,
   fun hle => insertBulk_le_high data s hG h1 hlh hle,
   erase_len_le hG, (eraseBulk_good keys s hG).2.2.1, popFront_len_le hG,
   rfl, by rw [tryGetValue_map_eq], rfl, rfl⟩

theorem claim4_witness :
    (insert exD 0 5).1.map.length ≤ exD.highWatermark ∧
    (insert exA 99 7).1.map.length ≤ exA.highWatermark := by
  obtain ⟨h1, _⟩ :=
    claim4_size_at_most_high exD 0 5 [] [] true true (fun _ _ => true)
      (by decide) (by decide) (by decide)
  obtain ⟨h2, _⟩ :=
    claim4_size_at_most_high exA 99 7 [] [] true true (fun _ _ => true)
      (by decide) (by decide) (by decide)
  exact ⟨h1, h2⟩

/-- C10: a `tryGetValue` whose key is absent returns 1 and has no
observable effect, for every policy and every `modifyEvictionQueue` flag:
the state (map and queue) is unchanged and the caller's output handle is
not assigned (`none`). -/
theorem claim10_tryGetValue_miss {K V : Type} [DecidableEq K]
    (s : Cache K V) (key : K) (b : Bool)
    (hfind : mapFind s.map key = none) :
    tryGetValue s key b = (s, 1, none) :=
  tryGetValue_none hfind

theorem claim10_witness :
    tryGetValue exB 42 true = (exB, 1, none) :=
  claim10_tryGetValue_miss exB 42 true (by decide)

/-- C5: a `tryGetValue` hit returns 0 and loads the stored value handle
into the output.  Under the LRU policy with `modifyEvictionQueue = true`
the found key's node becomes the tail of the eviction queue with the
relative order of all other nodes preserved (the queue becomes the erase
of that node followed by appending it) and the map is untouched; under
FIFO, or when the flag is false, the state is completely unchanged. -/
theorem claim5_tryGetValue_hit {K V : Type} [DecidableEq K]
    (s : Cache K V) (key : K) (b : Bool) (e : K × V × Nat)
    (hG : Good s) (hfind : mapFind s.map key = some e) :
    (tryGetValue s key b).2.1 = 0 ∧
    (tryGetValue s key b).2.2 = some e.2.1 ∧
    (s.evictionPolicy = CacheEvictionPolicy.e_LRU ∧ b = true →
      (tryGetValue s key b).1.queue =
        s.queue.eraseP (fun p => decide (p.1 = e.2.2)) ++ [(e.2.2, key)] ∧
      (tryGetValue s key b).1.queue.getLast? = some (e.2.2, key) ∧
      (tryGetValue s key b).1.map = s.map) ∧
    ((s.evictionPolicy = CacheEvictionPolicy.e_FIFO ∨ b = false) →
      (tryGetValue s key b).1 = s) := by
  have hout : (tryGetValue s key b).2 = (0, some e.2.1) :=
    tryGetValue_hit_out hfind
  refine ⟨?_, ?_, ?_, ?_⟩
  · show ((tryGetValue s key b).2).1 = 0
    rw [hout]
  · show ((tryGetValue s key b).2).2 = some e.2.1
    rw [hout]
  · rintro ⟨hp, hb⟩
    have hwl : (decide (s.evictionPolicy = CacheEvictionPolicy.e_LRU) && b)
        = true := by
      rw [hp, hb]
      rfl
    obtain ⟨hem, hek⟩ := mapFind_some hfind
    have hndi := hG.2.2.2.2.1
    have hnode : (e.2.2, e.1) ∈ s.queue := hG.2.1 e hem
    have hqne : s.queue ≠ [] := by
      intro h
      rw [h] at hnode
      cases hnode
    have hlast := List.getLast?_eq_getLast s.queue hqne
    have hres : tryGetValue s key b =
        (if (s.queue.getLast hqne).1 = e.2.2 then (s, 0, some e.2.1)
         else ({ s with queue := spliceToBack s.queue e.2.2 },
               0, some e.2.1)) := by
      rw [tryGetValue_some_write hfind hwl, hlast]
    by_cases heq : (s.queue.getLast hqne).1 = e.2.2
    · rw [hres, if_pos heq]
      have hlm : s.queue.getLast hqne ∈ s.queue := List.getLast_mem hqne
      have hln : s.queue.getLast hqne = (e.2.2, key) := by
        have h2 : s.queue.getLast hqne = (e.2.2, e.1) :=
          field_unique hndi hlm hnode (by simpa using heq)
        rw [h2, hek]
      have hdecomp := queue_last_decomp hndi hlast
      rw [heq] at hdecomp
      rw [hln] at hdecomp
      refine ⟨hdecomp, ?_, rfl⟩
      rw [hlast, hln]
    · rw [hres, if_neg heq]
      obtain ⟨_, hspq, hsplast⟩ := spliceToBack_spec hndi hnode rfl
      rw [hek] at hspq hsplast
      exact ⟨hspq, hsplast, rfl⟩
  · intro h
    have hwl : (decide (s.evictionPolicy = CacheEvictionPolicy.e_LRU) && b)
        = false := by
      rcases h with hf | hb
      · rw [hf]
        rfl
      · rw [hb]
        simp
    rw [tryGetValue_some_read hfind hwl]

theorem claim5_witness :
    (tryGetValue exA 10 true).2.2 = some 100 ∧
    (tryGetValue exA 10 true).1.queue.getLast? = some (0, 10) := by
  obtain ⟨_, hout, hlru, _⟩ :=
    claim5_tryGetValue_hit exA 10 true (10, 100, 0) (by decide) (by decide)
  exact ⟨hout, (hlru ⟨rfl, rfl⟩).2.1⟩

/-- C6: on a cache with room below the high watermark, after
`insert (k, v1)` then `insert (k, v2)` the lookup `tryGetValue k` returns
0 with `v2`, the map holds exactly one entry for `k`, and `k` is at the
tail of the eviction queue - the insert path never consults the policy;
likewise a single insert of a fresh key is returned by `tryGetValue`. -/
theorem claim6_insert_insert_get {K V : Type} [DecidableEq K]
    (s : Cache K V) (k : K) (v1 v2 v : V)
    (hG : Good s) (h1 : 1 ≤ s.lowWatermark)
    (hroom : s.map.length + 1 < s.highWatermark) :
    (tryGetValue (insert (insert s k v1).1 k v2).1 k true).2
      = (0, some v2) ∧
    ((insert (insert s k v1).1 k v2).1.map.filter
        (fun q => decide (q.1 = k))).length = 1 ∧
    ((insert (insert s k v1).1 k v2).1.queue.getLast?.map
        (fun p => p.2)) = some k ∧
    (mapFind s.map k = none →
      (tryGetValue (insert s k v).1 k true).2 = (0, some v)) := by
  have hlow : s.map.length < s.highWatermark := by omega
  have hfst1 : (insert s k v1).1 = (insertAfterEnforce s k v1).1 :=
    insert_fst_noBurst hlow
  obtain ⟨gs1, hlw1, hhw1, _, _⟩ := insert_good k v1 hG h1
  have hkey1 : ∃ c, mapFind (insert s k v1).1.map k = some (k, v1, c) ∧
      (insert s k v1).1.map.length ≤ s.map.length + 1 := by
    cases hf0 : mapFind s.map k with
    | none =>
      rw [hfst1, insertAfterEnforce_none_fst hf0]
      refine ⟨s.nextId, ?_, ?_⟩
      · show mapFind (s.map ++ [(k, v1, s.nextId)]) k = some (k, v1, s.nextId)
        exact mapFind_append_fresh hf0
      · show (s.map ++ [(k, v1, s.nextId)]).length ≤ s.map.length + 1
        simp
    | some e0 =>
      rw [hfst1, insertAfterEnforce_some_fst hf0]
      obtain ⟨_, hek0⟩ := mapFind_some hf0
      refine ⟨e0.2.2, ?_, ?_⟩
      · show mapFind (setValueAt s.map k v1) k = some (k, v1, e0.2.2)
        have h2 : mapFind (setValueAt s.map k v1) k
            = some (e0.1, v1, e0.2.2) := mapFind_setValueAt_self hf0
        rw [hek0] at h2
        exact h2
      · show (setValueAt s.map k v1).length ≤ s.map.length + 1
        rw [setValueAt_length]
        omega
  obtain ⟨c1, hfind1, hlen1⟩ := hkey1
  have hlow1 : (insert s k v1).1.map.length < (insert s k v1).1.highWatermark
      := by
    rw [hhw1]
    omega
  have hfst2 : (insert (insert s k v1).1 k v2).1
      = (insertAfterEnforce (insert s k v1).1 k v2).1 :=
    insert_fst_noBurst hlow1
  have hs2lit : (insert (insert s k v1).1 k v2).1
      = { (insert s k v1).1 with
          map := setValueAt (insert s k v1).1.map k v2,
          queue := spliceToBack (insert s k v1).1.queue (k, v1, c1).2.2 } := by
    rw [hfst2, insertAfterEnforce_some_fst hfind1]
  have hmap2 : (insert (insert s k v1).1 k v2).1.map
      = setValueAt (insert s k v1).1.map k v2 := by
    rw [hs2lit]
  have hqueue2 : (insert (insert s k v1).1 k v2).1.queue
      = spliceToBack (insert s k v1).1.queue c1 := by
    rw [hs2lit]
  have hfind2 : mapFind (insert (insert s k v1).1 k v2).1.map k
      = some (k, v2, c1) := by
    rw [hmap2]
    have h2 : mapFind (setValueAt (insert s k v1).1.map k v2) k
        = some ((k, v1, c1).1, v2, (k, v1, c1).2.2) :=
      mapFind_setValueAt_self hfind1
    exact h2
  have h1' : 1 ≤ (insert s k v1).1.lowWatermark := by
    rw [hlw1]
    exact h1
  obtain ⟨gs2, _, _, _, _⟩ := insert_good k v2 gs1 h1'
  refine ⟨?_, ?_, ?_, ?_⟩
  · have hout : (tryGetValue (insert (insert s k v1).1 k v2).1 k true).2
        = (0, some (k, v2, c1).2.1) := tryGetValue_hit_out hfind2
    exact hout
  · exact @filter_field_singleton (K × V × Nat) K _ (fun q => q.1) _
      gs2.2.2.2.1 _ (mapFind_some hfind2).1
  · have hmem1 : (k, v1, c1) ∈ (insert s k v1).1.map :=
      (mapFind_some hfind1).1
    have hnode1 : (c1, k) ∈ (insert s k v1).1.queue := gs1.2.1 _ hmem1
    obtain ⟨_, _, hsplast⟩ :=
      spliceToBack_spec gs1.2.2.2.2.1 hnode1 rfl
    rw [hqueue2, hsplast]
    rfl
  · intro hnone
    have hfstv : (insert s k v).1 = (insertAfterEnforce s k v).1 :=
      insert_fst_noBurst hlow
    have hfv : mapFind (insert s k v).1.map k = some (k, v, s.nextId) := by
      rw [hfstv, insertAfterEnforce_none_fst hnone]
      show mapFind (s.map ++ [(k, v, s.nextId)]) k = some (k, v, s.nextId)
      exact mapFind_append_fresh hnone
    have hout : (tryGetValue (insert s k v).1 k true).2
        = (0, some (k, v, s.nextId).2.1) := tryGetValue_hit_out hfv
    exact hout

theorem claim6_witness :
    (tryGetValue (insert (insert exB 10 7).1 10 8).1 10 true).2
      = (0, some 8) ∧
    (tryGetValue (insert exB 11 9).1 11 true).2 = (0, some 9) := by
  obtain ⟨h1, _, _, h4⟩ :=
    claim6_insert_insert_get exB 10 7 8 9 (by decide) (by decide) (by decide)
  refine ⟨h1, ?_⟩
  obtain ⟨_, _, _, h4'⟩ :=
    claim6_insert_insert_get exB 11 7 8 9 (by decide) (by decide) (by decide)
  exact h4' (by decide)

/-- C7: with a callback set, `erase` of a present key invokes it exactly
once with the removed entry's handle and `erase` of an absent key not at
all; `popFront` on a non-empty cache invokes it once with the front
entry's handle; `clear` never invokes it; a replacement insert below the
high watermark never invokes it; a watermark burst invokes it exactly once
per evicted entry; and `eraseBulk` invokes it exactly as many times as the
count of erased entries it returns. -/
theorem claim7_callback_invocations {K V : Type} [DecidableEq K]
    (s : Cache K V)
    (hG : Good s) (h1 : 1 ≤ s.lowWatermark)
    (hlh : s.lowWatermark ≤ s.highWatermark)
    (hcb : s.hasCallback = true) :
    (∀ (key : K) (e : K × V × Nat), mapFind s.map key = some e →
      (erase s key).2.2 = [e.2.1]) ∧
    (∀ key : K, mapFind s.map key = none → (erase s key).2.2 = []) ∧
    (∀ (p : Nat × K) (qt : List (Nat × K)) (e : K × V × Nat),
      0 < s.map.length → s.queue = p :: qt → mapFind s.map p.2 = some e →
      (popFront s).2.2 = [e.2.1]) ∧
    (clear s).2 = [] ∧
    (∀ (key : K) (v : V) (e : K × V × Nat), mapFind s.map key = some e →
      s.map.length < s.highWatermark → (insert s key v).2 = []) ∧
    (s.highWatermark ≤ s.map.length →
      (enforceHighWatermark s).2.length = burstCount s) ∧
    (∀ keys : List K,
      (eraseBulk s keys).2.2.length = (eraseBulk s keys).2.1) := by
  refine ⟨?_, ?_, ?_, rfl, ?_, ?_, ?_⟩
  · intro key e hfind
    rw [erase_some hfind]
    show (if s.hasCallback then [e.2.1] else []) = [e.2.1]
    rw [hcb]
    rfl
  · intro key hfind
    rw [erase_none hfind]
  · intro p qt e hpos hq hfind
    rw [popFront_some hpos hq hfind]
    show (if s.hasCallback then [e.2.1] else []) = [e.2.1]
    rw [hcb]
    rfl
  · intro key v e _ hlow
    exact insert_events_noBurst hlow
  · intro htrig
    obtain ⟨_, _, hev, _, _⟩ := enforceHighWatermark_burst hG h1 hlh htrig
    rw [hev, if_pos hcb]
    rw [length_filterMap_of_isSome ?side]
    case side =>
      intro x hx
      have hxq : x ∈ s.queue := (List.take_sublist _ _).subset hx
      obtain ⟨ex, _, hfx, _, _⟩ := good_entry_of_node hG hxq
      rw [hfx]
      rfl
    rw [List.length_take]
    have hbceq : burstCount s = s.map.length + 1 - s.lowWatermark := rfl
    have hqlen := hG.1
    omega
  · intro keys
    exact (eraseBulk_good keys s hG).2.2.2 hcb

theorem claim7_witness :
    (erase exA 10).2.2 = [100] ∧
    (enforceHighWatermark exA).2.length = burstCount exA := by
  obtain ⟨h1, _, _, _, _, h6, _⟩ :=
    claim7_callback_invocations exA (by decide) (by decide) (by decide)
      (by decide)
  exact ⟨h1 10 (10, 100, 0) (by decide), h6 (by decide)⟩

/-- C8, claim as stated is false on the code: a failed map insertion is
rolled back only to the state left by the eviction controller, which runs
first; when the insert began at or above the high watermark, the evictions
are not undone.  In `exE` (one entry, both watermarks 1) an insert of
fresh key 1 whose `emplace` throws leaves the cache empty, not with its
original entry. -/
theorem claim8_counterexample :
    (insertEmplaceThrow exE 1).1.map ≠ exE.map ∧
    (insertEmplaceThrow exE 1).1.queue ≠ exE.queue ∧
    exE.map.length = 1 ∧ (insertEmplaceThrow exE 1).1.map.length = 0 := by
  decide

/-- C8 amended: if the map `emplace` of a new-key insert throws, the queue
proctor pops the appended tail node, so the map and queue are exactly what
they were immediately after the eviction-controller phase of that insert;
in particular, when the insert began strictly below the high watermark
(so no eviction ran), the map and queue are unchanged from the start of
the insert. -/
theorem claim8_emplaceThrow_rollback {K V : Type} [DecidableEq K]
    (s : Cache K V) (key : K)
    (hG : Good s) (h1 : 1 ≤ s.lowWatermark)
    (habs : mapFind (enforceHighWatermark s).1.map key = none) :
    (insertEmplaceThrow s key).1.map = (enforceHighWatermark s).1.map ∧
    (insertEmplaceThrow s key).1.queue = (enforceHighWatermark s).1.queue ∧
    (s.map.length < s.highWatermark →
      (insertEmplaceThrow s key).1.map = s.map ∧
      (insertEmplaceThrow s key).1.queue = s.queue) := by
  obtain ⟨g1, _, _, _, _, _, _⟩ := enforceHighWatermark_good hG h1
  have hbd1 := g1.2.2.2.2.2
  have hmape : (insertEmplaceThrow s key).1.map
      = (enforceHighWatermark s).1.map := by
    rw [insertEmplaceThrow_none habs]
  have hqueuee : (insertEmplaceThrow s key).1.queue
      = (enforceHighWatermark s).1.queue := by
    rw [insertEmplaceThrow_none habs]
    exact proctorRestore_concat hbd1
  refine ⟨hmape, hqueuee, fun hlow => ?_⟩
  have hs1 : (enforceHighWatermark s).1 = s := by
    rw [enforceHighWatermark_noTrigger hlow]
  rw [hs1] at hmape hqueuee
  exact ⟨hmape, hqueuee⟩

theorem claim8_witness :
    (insertEmplaceThrow exB 42).1.map = exB.map ∧
    (insertEmplaceThrow exB 42).1.queue = exB.queue := by
  obtain ⟨_, _, h3⟩ :=
    claim8_emplaceThrow_rollback exB 42 (by decide) (by decide) (by decide)
  exact h3 (by decide)

/-- C9: when the post-eviction callback of the first victim of a watermark
burst throws, that victim has already been fully removed from both the map
and the queue (the error state is exactly the post-removal state and still
satisfies the coupling invariant), the exception propagates out of the
burst and out of the triggering insert, and the remaining pending
evictions are abandoned: the size is exactly the original size minus one,
still at least the low watermark when at least two evictions were
pending. -/
theorem claim9_callback_throw_mid_burst {K V : Type} [DecidableEq K]
    (s : Cache K V) (throws : V → Bool) (key : K) (v : V)
    (p : Nat × K) (e : K × V × Nat)
    (hG : Good s) (h1 : 1 ≤ s.lowWatermark) (hcb : s.hasCallback = true)
    (htrig : s.highWatermark ≤ s.map.length)
    (hpend : s.lowWatermark + 1 ≤ s.map.length)
    (hhead : s.queue.head? = some p)
    (hfind : mapFind s.map p.2 = some e)
    (hthrow : throws e.2.1 = true) :
    enforceHighWatermarkT throws s = Except.error (evictItem s e).1 ∧
    insertT throws s key v = Except.error (evictItem s e).1 ∧
    Good (evictItem s e).1 ∧
    (evictItem s e).1.map.length + 1 = s.map.length ∧
    (evictItem s e).1.queue = s.queue.tail ∧
    s.lowWatermark ≤ (evictItem s e).1.map.length := by
  have hqne : s.queue ≠ [] := by
    intro h
    rw [h] at hhead
    cases hhead
  obtain ⟨p', qt, hq⟩ := List.exists_cons_of_ne_nil hqne
  have hp' : p' = p := by
    rw [hq] at hhead
    exact Option.some.inj hhead
  subst hp'
  obtain ⟨e', he'm, hfind', hek', hec'⟩ :=
    good_entry_of_node hG (by rw [hq]; exact List.mem_cons_self _ _)
  have he'e : e' = e := by
    rw [hfind'] at hfind
    exact Option.some.inj hfind
  rw [he'e] at he'm hfind' hek' hec'
  obtain ⟨hGood', hlen'⟩ := evictItem_good hG hfind'
  obtain ⟨j, hj⟩ : ∃ j, s.map.length = j + 1 := ⟨s.map.length - 1, by omega⟩
  have hstep : enforceLoopT throws s.map.length s
      = Except.error (evictItem s e).1 := by
    rw [hj]
    conv_lhs => rw [enforceLoopT]
    rw [if_pos ⟨by omega, by omega⟩, hq]
    dsimp only
    rw [hfind']
    show (match evictItemT throws s e with
          | Except.error t => Except.error t
          | Except.ok s' => enforceLoopT throws j s')
        = Except.error (evictItem s e).1
    unfold evictItemT
    rw [hcb, hthrow]
    rfl
  have henfT : enforceHighWatermarkT throws s
      = Except.error (evictItem s e).1 := by
    rw [enforceHighWatermarkT_run htrig]
    exact hstep
  refine ⟨henfT, ?_, hGood', by omega, ?_, by omega⟩
  · unfold insertT
    rw [henfT]
  · show s.queue.eraseP (fun x => decide (x.1 = e.2.2)) = s.queue.tail
    rw [hq, hec']
    rw [List.eraseP_cons_of_pos (by simp)]
    rfl

theorem claim9_witness :
    enforceHighWatermarkT (fun _ => true) exA
      = Except.error (evictItem exA (10, 100, 0)).1 ∧
    (evictItem exA (10, 100, 0)).1.map.length + 1 = exA.map.length := by
  obtain ⟨h1, _, _, h4, _, _⟩ :=
    claim9_callback_throw_mid_burst exA (fun _ => true) 99 7 (0, 10)
      (10, 100, 0) (by decide) (by decide) (by decide) (by decide)
      (by decide) (by decide) (by decide) rfl
  exact ⟨h1, h4⟩

end BdlccCache
